import Mathlib

/-!
Verification of `splitNSP.py` (AnalogMan151/splitNSP) against its
natural-language specification.

The script splits a large file into parts of at most `splitSize` bytes and
can reassemble them.  We shallowly embed the three operations of the script

  * `splitCopy`  (src/splitNSP.py lines 78-122),
  * `splitQuick` (lines 16-76),
  * `undoSplit`  (lines 124-151),

as pure Lean functions over file contents modelled as `List Nat` (one `Nat`
per byte).  A source stream handle is modelled by the list of bytes from its
current position to end of file: `read(chunkSize)` returns `take chunkSize`
and advances the position (`drop chunkSize`), returning fewer bytes (or none)
at end of file, exactly like the Python file object.  Free disk space and the
pre-existing target file of the joiner are explicit parameters.  An operation
that returns early before mutating the filesystem is modelled as returning
`none`.  Progress printing and `os.path` existence checks for missing inputs
are not modelled.  `int(fileSize/splitSize)` is modelled as exact floor
division (for the sizes the tool supports, below 100 parts, the Python float
division is exact enough that `int` of it is the floor).
-/

/-- `splitSize = 0xFFFF0000`, src/splitNSP.py line 13 (4,294,901,760 bytes). -/
def splitSize : Nat := 0xFFFF0000

/-- `chunkSize = 0x8000`, line 14 (32,768 bytes). -/
def chunkSize : Nat := 0x8000

/-- The chunked transfer loop shared by all three operations
(lines 51-53, 66-68, 113-115, 118-120 and 144-146):

    while partSize < budget:
        out.write(src.read(cs))
        partSize += cs

Returns the list of written chunks together with the remaining source
stream.  Each iteration reads at most `cs` bytes (possibly fewer, or none,
at end of file) but always advances `partSize` by the full `cs`.  The chunk
size is passed together with a positivity proof (the loop would not
terminate for a zero chunk size). -/
def chunkLoop (cs : Nat) (hcs : 0 < cs) (src : List Nat) (budget partSize : Nat) :
    List (List Nat) × List Nat :=
  if _h : partSize < budget then
    let t := chunkLoop cs hcs (src.drop cs) budget (partSize + cs)
    (src.take cs :: t.1, t.2)
  else ([], src)
termination_by budget - partSize
decreasing_by omega

/-- The transfer loop at the script's chunk size. -/
def writeLoop (src : List Nat) (budget partSize : Nat) : List (List Nat) × List Nat :=
  chunkLoop chunkSize (by norm_num [chunkSize]) src budget partSize

/-- Number of iterations the loop performs for a byte budget:
`⌈budget / chunkSize⌉`. -/
def chunksNeeded (n : Nat) : Nat := (n + chunkSize - 1) / chunkSize

/-- All bytes a single part transfer writes. -/
def transferred (src : List Nat) (budget : Nat) : List Nat :=
  (writeLoop src budget 0).1.flatten

/-- The part file name `'\x7b:02\x7d'.format(i)` (lines 47, 62, 110): the decimal
representation of `i`, left padded with `0` to width 2. -/
def partName (i : Nat) : String :=
  if i < 10 then String.mk ('0' :: (Nat.repr i).data) else Nat.repr i

/-- The body of the copy-mode split loop `for i in range(splitNum + 1)`
(lines 107-121), threading the read position of the source handle and
`remainingSize` through the iterations.  Each iteration writes one part
file named by the two-digit index. -/
def splitCopyLoop : List Nat → Nat → Nat → Nat → List (String × List Nat)
  | _, _, _, 0 => []
  | src, remainingSize, i, n + 1 =>
    if remainingSize > splitSize then
      let t := writeLoop src splitSize 0
      (partName i, t.1.flatten) :: splitCopyLoop t.2 (remainingSize - splitSize) (i + 1) n
    else
      let t := writeLoop src remainingSize 0
      (partName i, t.1.flatten) :: splitCopyLoop t.2 remainingSize (i + 1) n

/-- Copy-mode split (lines 78-122), for the default output directory.
Returns `none` when the function returns before creating the output
directory (insufficient free space, or `splitNum == 0`), otherwise the
directory contents: the part files in creation order. -/
def splitCopy (free : Nat) (file : List Nat) : Option (List (String × List Nat)) :=
  let fileSize := file.length
  if free < fileSize * 2 then none
  else
    let splitNum := fileSize / splitSize
    if splitNum = 0 then none
    else some (splitCopyLoop file fileSize 0 (splitNum + 1))

/-- The PartSet both split modes produce: part `i` holds bytes
`[i*splitSize, (i+1)*splitSize)` of the original file (clipped to the file),
for `i = 0 .. fileSize/splitSize`. -/
def partsOf (file : List Nat) : List (String × List Nat) :=
  (List.range (file.length / splitSize + 1)).map
    (fun i => (partName i, (file.drop (splitSize * i)).take splitSize))

/-- One extract-and-truncate step of the quick-mode splitter (lines 45-56,
59-70): seek `b` bytes before end of file, copy until the loop counter
reaches `b` into a new part, then seek `b` before end again and truncate
there.  Returns the written part content and the truncated file content. -/
def tailCopy (c : List Nat) (b : Nat) : List Nat × List Nat :=
  let pos := c.length - b
  ((writeLoop (c.drop pos) b 0).1.flatten, c.take pos)

/-- The loop `for i in range(splitNum - 1)` of the quick-mode splitter
(lines 59-71): repeatedly extract a `splitSize` tail into parts named by
descending indices `idx, idx - 1, ..`.  Returns the created parts in
ascending index order, and the final content left in file `00`. -/
def quickMids : Nat → Nat → List Nat → List (String × List Nat) × List Nat
  | 0, _, c => ([], c)
  | n + 1, idx, c =>
    let t := tailCopy c splitSize
    let m := quickMids n (idx - 1) t.2
    (m.1 ++ [(partName idx, t.1)], m.2)

/-- Quick-mode split (lines 16-76).  Returns `none` when the function
returns before mutating anything (insufficient space, or `splitNum == 0`),
otherwise the final directory contents in index order: the source file was
moved in as part `00` (line 38) and repeatedly truncated, the other parts
are its extracted tails. -/
def splitQuick (free : Nat) (file : List Nat) : Option (List (String × List Nat)) :=
  let fileSize := file.length
  if free < splitSize then none
  else
    let splitNum := fileSize / splitSize
    if splitNum = 0 then none
    else
      let finalSplitSize := fileSize - splitSize * splitNum
      let t := tailCopy file finalSplitSize
      let m := quickMids (splitNum - 1) (splitNum - 1) t.2
      some ((partName 0, m.2) :: m.1 ++ [(partName splitNum, t.1)])

/-- The state of the quick-mode splitter after `j` completed
extract-and-truncate steps: the current content of file `00` and the parts
extracted so far, in ascending index order.  Step 1 is the final-part
extraction (lines 45-56); steps 2 and later are the loop iterations
(lines 59-71). -/
def quickState (file : List Nat) (j : Nat) : List Nat × List (String × List Nat) :=
  match j with
  | 0 => (file, [])
  | jj + 1 =>
    let fileSize := file.length
    let splitNum := fileSize / splitSize
    let t := tailCopy file (fileSize - splitSize * splitNum)
    let m := quickMids jj (splitNum - 1) t.2
    (m.2, m.1 ++ [(partName splitNum, t.1)])

/-- The joiner's name filter `fnmatch.filter(os.listdir(splitDir), "[0,9]*")`
(line 140): a name matches exactly when it is nonempty and its first
character is one of `0`, `,`, `9` (the bracket expression lists those three
characters); arbitrary characters may follow. -/
def matchPattern (s : String) : Bool :=
  match s.data with
  | [] => false
  | c :: _ => c == '0' || c == ',' || c == '9'

/-- Python string comparison: lexicographic on code points. -/
def charsLt : List Char → List Char → Bool
  | [], [] => false
  | [], _ :: _ => true
  | _ :: _, [] => false
  | a :: as, b :: bs => if a < b then true else if a = b then charsLt as bs else false

/-- `a < b` for Python strings. -/
def strLt (a b : String) : Bool := charsLt a.data b.data

/-- Insertion into a sorted part list; together with `sortParts` this models
Python `sorted` on the (distinct) file names (line 140). -/
def insertPart (e : String × List Nat) :
    List (String × List Nat) → List (String × List Nat)
  | [] => [e]
  | x :: xs => if strLt e.1 x.1 then e :: x :: xs else x :: insertPart e xs

/-- Sorting of the filtered directory listing by name (line 140). -/
def sortParts : List (String × List Nat) → List (String × List Nat)
  | [] => []
  | x :: xs => insertPart x (sortParts xs)

/-- `totalFileSize` (line 128): the sizes of all files in the split
directory, summed. -/
def totalSize (entries : List (String × List Nat)) : Nat :=
  (entries.map (fun e => e.2.length)).sum

/-- The write pass of the joiner (lines 139-146): iterate over the sorted,
filtered directory listing, appending each file's bytes via the chunked
loop with the file's full size as budget. -/
def joinParts (entries : List (String × List Nat)) : List Nat :=
  ((sortParts (entries.filter (fun e => matchPattern e.1))).map
    (fun e => transferred e.2 e.2.length)).flatten

/-- The joiner `undoSplit` (lines 124-151).  `entries` is the split
directory listing with file contents, `free` the free space, `existing` the
size of a pre-existing file at the output path (`none` when absent).
Returns `none` when the function returns without a write pass (insufficient
space, or target already present with size equal to `totalSize`), otherwise
the combined file it writes. -/
def undoSplit (entries : List (String × List Nat)) (free : Nat)
    (existing : Option Nat) : Option (List Nat) :=
  if free < totalSize entries then none
  else
    match existing with
    | some sz => if sz = totalSize entries then none else some (joinParts entries)
    | none => some (joinParts entries)

/-- The split directory name `filepath[:-4] + '_split.nsp'` (lines 31, 94,
default output location): the last four characters of the path are removed
and the literal suffix `_split.nsp` is appended. -/
def splitDirName (p : String) : String :=
  String.mk (p.data.take (p.data.length - 4) ++ "_split.nsp".data)

/-- The joiner's output name `splitDir.rstrip("_split.nsp") + ".nsp"`
(line 134): `rstrip` removes all trailing characters that belong to the
character set of `"_split.nsp"`, then the literal `".nsp"` is appended. -/
def undoName (d : String) : String :=
  String.mk ((d.data.reverse.dropWhile (fun c => "_split.nsp".data.contains c)).reverse
    ++ ".nsp".data)

/-- A file of ten full parts plus one extra byte: its copy-mode split has
parts `00` .. `10`, and part `10` (the final byte) is not matched by the
joiner's `[0,9]*` pattern. -/
def file10 : List Nat := List.replicate (10 * splitSize) 0 ++ [7]

lemma chunkSize_pos : 0 < chunkSize := by norm_num [chunkSize]

lemma chunk_dvd_split : chunkSize ∣ splitSize := by norm_num [chunkSize, splitSize]

lemma writeLoop_closed (d : Nat) :
    ∀ (src : List Nat) (budget partSize : Nat), budget - partSize = d →
      writeLoop src budget partSize =
        ((List.range (chunksNeeded d)).map
            (fun i => (src.drop (chunkSize * i)).take chunkSize),
          src.drop (chunkSize * chunksNeeded d)) := by
  induction d using Nat.strong_induction_on with
  | _ d ih =>
    intro src budget partSize hd
    rw [writeLoop, chunkLoop.eq_def]
    by_cases h : partSize < budget
    · rw [dif_pos h]
      have hd0 : 0 < d := by omega
      have hrec := ih (d - chunkSize) (by have := chunkSize_pos; omega)
        (src.drop chunkSize) budget (partSize + chunkSize) (by omega)
      rw [writeLoop] at hrec
      have hcn : chunksNeeded d = chunksNeeded (d - chunkSize) + 1 := by
        simp only [chunksNeeded, chunkSize] at *
        omega
      simp only [hrec, hcn, Prod.mk.injEq]
      refine ⟨?_, ?_⟩
      · rw [List.range_succ_eq_map, List.map_cons, List.map_map]
        simp only [Nat.mul_zero, List.drop_zero]
        congr 1
        apply List.map_congr_left
        intro i _
        simp only [Function.comp_apply, List.drop_drop]
        congr 2
        simp only [chunkSize]
        omega
      · simp only [List.drop_drop]
        congr 1
        simp only [chunkSize]
        omega
    · rw [dif_neg h]
      have hd0 : d = 0 := by omega
      subst hd0
      simp [chunksNeeded, chunkSize]

lemma writeLoop_chunks (src : List Nat) (budget : Nat) :
    (writeLoop src budget 0).1 =
      (List.range (chunksNeeded budget)).map
        (fun i => (src.drop (chunkSize * i)).take chunkSize) := by
  rw [writeLoop_closed (budget - 0) src budget 0 rfl]
  simp

lemma writeLoop_rest (src : List Nat) (budget : Nat) :
    (writeLoop src budget 0).2 = src.drop (chunkSize * chunksNeeded budget) := by
  rw [writeLoop_closed (budget - 0) src budget 0 rfl]
  simp

lemma flatten_chunks (cs : Nat) (src : List Nat) :
    ∀ n : Nat, ((List.range n).map (fun i => (src.drop (cs * i)).take cs)).flatten
      = src.take (cs * n) := by
  intro n
  induction n generalizing src with
  | zero => simp
  | succ m ihm =>
    rw [List.range_succ_eq_map, List.map_cons, List.map_map]
    simp only [Nat.mul_zero, List.drop_zero, List.flatten_cons]
    have hmap : (List.range m).map ((fun i => (src.drop (cs * i)).take cs) ∘ Nat.succ)
        = (List.range m).map (fun i => ((src.drop cs).drop (cs * i)).take cs) := by
      apply List.map_congr_left
      intro i _
      simp only [Function.comp_apply, List.drop_drop, Nat.succ_eq_add_one]
      congr 2
      ring
    rw [hmap, ihm (src.drop cs)]
    rw [← List.take_add]
    congr 1
    ring

lemma transferred_eq (src : List Nat) (budget : Nat) :
    transferred src budget = src.take (chunkSize * chunksNeeded budget) := by
  rw [transferred, writeLoop_chunks, flatten_chunks]

lemma chunksNeeded_ge (budget : Nat) : budget ≤ chunkSize * chunksNeeded budget := by
  simp only [chunksNeeded, chunkSize]
  omega

lemma transferred_of_dvd (src : List Nat) (budget : Nat) (h : chunkSize ∣ budget) :
    transferred src budget = src.take budget := by
  rw [transferred_eq]
  congr 1
  obtain ⟨q, hq⟩ := h
  subst hq
  simp only [chunksNeeded, chunkSize] at *
  omega

lemma transferred_all (src : List Nat) (budget : Nat) (h : src.length ≤ budget) :
    transferred src budget = src := by
  rw [transferred_eq]
  exact List.take_of_length_le (le_trans h (chunksNeeded_ge budget))

lemma transferred_self (src : List Nat) : transferred src src.length = src :=
  transferred_all src src.length le_rfl

lemma writeLoop_rest_all (src : List Nat) (budget : Nat) (h : src.length ≤ budget) :
    (writeLoop src budget 0).2 = [] := by
  rw [writeLoop_rest]
  exact List.drop_eq_nil_of_le (le_trans h (chunksNeeded_ge budget))

lemma writeLoop_rest_dvd (src : List Nat) (budget : Nat) (h : chunkSize ∣ budget) :
    (writeLoop src budget 0).2 = src.drop budget := by
  rw [writeLoop_rest]
  congr 1
  obtain ⟨q, hq⟩ := h
  subst hq
  simp only [chunksNeeded, chunkSize] at *
  omega

lemma writeLoop_count (src : List Nat) (budget : Nat) :
    (writeLoop src budget 0).1.length = chunksNeeded budget := by
  rw [writeLoop_chunks]
  simp

lemma flatten_writeLoop (src : List Nat) (b : Nat) :
    (writeLoop src b 0).1.flatten = transferred src b := rfl

lemma splitCopyLoop_nil (n : Nat) :
    ∀ (rem i : Nat), splitCopyLoop [] rem i n
      = (List.range n).map (fun j => (partName (i + j), ([] : List Nat))) := by
  induction n with
  | zero => intro rem i; simp [splitCopyLoop]
  | succ m ihm =>
    intro rem i
    have hpart : ∀ b : Nat, (writeLoop ([] : List Nat) b 0).1.flatten = [] := by
      intro b
      rw [flatten_writeLoop, transferred_eq]
      simp
    have hrest : ∀ b : Nat, (writeLoop ([] : List Nat) b 0).2 = [] := by
      intro b
      rw [writeLoop_rest]
      simp
    rw [List.range_succ_eq_map, List.map_cons, List.map_map]
    have htail : (List.range m).map (fun j => (partName (i + 1 + j), ([] : List Nat)))
        = (List.range m).map ((fun j => (partName (i + j), ([] : List Nat))) ∘ Nat.succ) := by
      apply List.map_congr_left
      intro j _
      simp only [Function.comp_apply, Nat.succ_eq_add_one, Prod.mk.injEq]
      refine ⟨by congr 1; omega, by simp⟩
    by_cases h : rem > splitSize
    · simp only [splitCopyLoop, if_pos h, hpart, hrest, ihm]
      rw [htail]
      simp
    · simp only [splitCopyLoop, if_neg h, hpart, hrest, ihm]
      rw [htail]
      simp

lemma splitCopyLoop_eq (n : Nat) :
    ∀ (src : List Nat) (i : Nat), splitCopyLoop src src.length i n
      = (List.range n).map
          (fun j => (partName (i + j), (src.drop (splitSize * j)).take splitSize)) := by
  induction n with
  | zero => intro src i; simp [splitCopyLoop]
  | succ m ihm =>
    intro src i
    have hshift : (List.range (m + 1)).map
        (fun j => (partName (i + j), (src.drop (splitSize * j)).take splitSize))
      = (partName i, src.take splitSize)
        :: (List.range m).map
            (fun j => (partName (i + 1 + j), (src.drop (splitSize * (j + 1))).take splitSize)) := by
      rw [List.range_succ_eq_map, List.map_cons, List.map_map]
      simp only [Nat.add_zero, Nat.mul_zero, List.drop_zero]
      congr 1
      apply List.map_congr_left
      intro j _
      simp only [Function.comp_apply, Nat.succ_eq_add_one, Prod.mk.injEq]
      refine ⟨by congr 1; omega, trivial⟩
    rw [hshift]
    by_cases h : src.length > splitSize
    · have hpart : (writeLoop src splitSize 0).1.flatten = src.take splitSize := by
        rw [flatten_writeLoop]
        exact transferred_of_dvd src splitSize chunk_dvd_split
      have hrest : (writeLoop src splitSize 0).2 = src.drop splitSize :=
        writeLoop_rest_dvd src splitSize chunk_dvd_split
      have hlen : (src.drop splitSize).length = src.length - splitSize := by
        simp
      simp only [splitCopyLoop, if_pos h, hpart, hrest]
      rw [← hlen, ihm (src.drop splitSize) (i + 1)]
      congr 1
      apply List.map_congr_left
      intro j _
      simp only [List.drop_drop, Prod.mk.injEq]
      refine ⟨trivial, ?_⟩
      congr 2
      simp only [splitSize]
      omega
    · have hle : src.length ≤ splitSize := by omega
      have hpart : (writeLoop src src.length 0).1.flatten = src := by
        rw [flatten_writeLoop]
        exact transferred_self src
      have hrest : (writeLoop src src.length 0).2 = [] :=
        writeLoop_rest_all src src.length le_rfl
      simp only [splitCopyLoop, if_neg h, hpart, hrest]
      rw [splitCopyLoop_nil]
      congr 1
      · rw [List.take_of_length_le hle]
      apply List.map_congr_left
      intro j _
      simp only [Prod.mk.injEq]
      refine ⟨trivial, ?_⟩
      have hnil : src.drop (splitSize * (j + 1)) = [] := by
        apply List.drop_eq_nil_of_le
        calc src.length ≤ splitSize := hle
        _ ≤ splitSize * (j + 1) := by simp only [splitSize]; omega
      rw [hnil]
      simp

lemma splitSize_le_iff (m : Nat) : splitSize ≤ m ↔ m / splitSize ≠ 0 := by
  simp only [splitSize]
  omega

lemma splitCopy_eq (free : Nat) (file : List Nat)
    (h1 : file.length * 2 ≤ free) (h2 : splitSize ≤ file.length) :
    splitCopy free file = some (partsOf file) := by
  have hk : file.length / splitSize ≠ 0 := (splitSize_le_iff file.length).mp h2
  simp only [splitCopy, if_neg (by omega : ¬ free < file.length * 2), if_neg hk]
  rw [splitCopyLoop_eq (file.length / splitSize + 1) file 0]
  simp [partsOf]

lemma tailCopy_flatten (c : List Nat) (b : Nat) :
    (tailCopy c b).1 = c.drop (c.length - b) := by
  rw [tailCopy, flatten_writeLoop]
  apply transferred_all
  simp only [List.length_drop]
  omega

lemma tailCopy_trunc (c : List Nat) (b : Nat) :
    (tailCopy c b).2 = c.take (c.length - b) := rfl

lemma tailCopy_inv (c : List Nat) (b : Nat) :
    (tailCopy c b).2 ++ (tailCopy c b).1 = c := by
  rw [tailCopy_flatten, tailCopy_trunc]
  exact List.take_append_drop (c.length - b) c

lemma quickMids_zero (idx : Nat) (c : List Nat) : quickMids 0 idx c = ([], c) := rfl

lemma quickMids_succ (n idx : Nat) (c : List Nat) :
    quickMids (n + 1) idx c =
      ((quickMids n (idx - 1) (tailCopy c splitSize).2).1
          ++ [(partName idx, (tailCopy c splitSize).1)],
        (quickMids n (idx - 1) (tailCopy c splitSize).2).2) := rfl

lemma quickMids_inv (n : Nat) :
    ∀ (idx : Nat) (c : List Nat),
      (quickMids n idx c).2 ++ ((quickMids n idx c).1.map (fun e => e.2)).flatten = c := by
  induction n with
  | zero => intro idx c; rw [quickMids_zero]; simp
  | succ m ihm =>
    intro idx c
    rw [quickMids_succ]
    simp only [List.map_append, List.flatten_append]
    rw [← List.append_assoc, ihm]
    simp only [List.map_cons, List.map_nil, List.flatten_cons, List.flatten_nil,
      List.append_nil]
    exact tailCopy_inv c splitSize

lemma quickMids_eq (n : Nat) :
    ∀ c : List Nat, c.length = splitSize * (n + 1) →
      quickMids n n c
        = ((List.range n).map
              (fun i => (partName (i + 1), (c.drop (splitSize * (i + 1))).take splitSize)),
            c.take splitSize) := by
  induction n with
  | zero =>
    intro c hc
    rw [quickMids_zero]
    simp only [List.range_zero, List.map_nil]
    rw [List.take_of_length_le (by simp only [splitSize] at *; omega)]
  | succ m ihm =>
    intro c hc
    rw [quickMids_succ]
    have hpos : c.length - splitSize = splitSize * (m + 1) := by
      simp only [splitSize] at *
      omega
    have ht1 : (tailCopy c splitSize).1 = c.drop (splitSize * (m + 1)) := by
      rw [tailCopy_flatten, hpos]
    have ht2 : (tailCopy c splitSize).2 = c.take (splitSize * (m + 1)) := by
      rw [tailCopy_trunc, hpos]
    have ht2len : (tailCopy c splitSize).2.length = splitSize * (m + 1) := by
      rw [ht2, List.length_take]
      simp only [splitSize] at *
      omega
    have hidx : m + 1 - 1 = m := by omega
    rw [hidx, ihm (tailCopy c splitSize).2 ht2len]
    have hparts : (List.range m).map
        (fun i => (partName (i + 1),
          ((tailCopy c splitSize).2.drop (splitSize * (i + 1))).take splitSize))
      = (List.range m).map
        (fun i => (partName (i + 1), (c.drop (splitSize * (i + 1))).take splitSize)) := by
      apply List.map_congr_left
      intro i hi
      have him : i < m := List.mem_range.mp hi
      simp only [Prod.mk.injEq]
      refine ⟨trivial, ?_⟩
      rw [ht2, List.drop_take, List.take_take,
        Nat.min_eq_left (by simp only [splitSize]; omega :
          splitSize ≤ splitSize * (m + 1) - splitSize * (i + 1))]
    rw [hparts, ht1, ht2]
    have hlast : c.drop (splitSize * (m + 1))
        = (c.drop (splitSize * (m + 1))).take splitSize := by
      rw [List.take_of_length_le]
      simp only [List.length_drop]
      simp only [splitSize] at *
      omega
    have hfinal : (c.take (splitSize * (m + 1))).take splitSize = c.take splitSize := by
      rw [List.take_take,
        Nat.min_eq_left (by simp only [splitSize]; omega :
          splitSize ≤ splitSize * (m + 1))]
    rw [List.range_succ, List.map_append]
    simp only [List.map_cons, List.map_nil]
    rw [hfinal, ← hlast]

lemma splitQuick_eq (free : Nat) (file : List Nat)
    (h1 : splitSize ≤ free) (h2 : splitSize ≤ file.length) :
    splitQuick free file = some (partsOf file) := by
  have hk : file.length / splitSize ≠ 0 := (splitSize_le_iff file.length).mp h2
  obtain ⟨kk, hkk⟩ : ∃ kk, file.length / splitSize = kk + 1 :=
    ⟨file.length / splitSize - 1,
      (Nat.succ_pred_eq_of_pos (Nat.pos_of_ne_zero hk)).symm⟩
  have hks : splitSize * (kk + 1) ≤ file.length := by
    have : splitSize * (file.length / splitSize) ≤ file.length := by
      simp only [splitSize]
      omega
    rw [hkk] at this
    exact this
  have hr : file.length - splitSize * (kk + 1) < splitSize := by
    have : file.length - splitSize * (file.length / splitSize) < splitSize := by
      simp only [splitSize]
      omega
    rw [hkk] at this
    exact this
  simp only [splitQuick, if_neg (by omega : ¬ free < splitSize), if_neg hk, hkk,
    Nat.add_sub_cancel]
  have hpos2 : file.length - (file.length - splitSize * (kk + 1))
      = splitSize * (kk + 1) := by
    omega
  have ht1 : (tailCopy file (file.length - splitSize * (kk + 1))).1
      = file.drop (splitSize * (kk + 1)) := by
    rw [tailCopy_flatten, hpos2]
  have ht2 : (tailCopy file (file.length - splitSize * (kk + 1))).2
      = file.take (splitSize * (kk + 1)) := by
    rw [tailCopy_trunc, hpos2]
  have ht2len : (tailCopy file (file.length - splitSize * (kk + 1))).2.length
      = splitSize * (kk + 1) := by
    rw [ht2, List.length_take]
    omega
  rw [quickMids_eq kk (tailCopy file (file.length - splitSize * (kk + 1))).2 ht2len]
  have hmids : (List.range kk).map
      (fun i => (partName (i + 1),
        ((tailCopy file (file.length - splitSize * (kk + 1))).2.drop
            (splitSize * (i + 1))).take splitSize))
    = (List.range kk).map
      (fun i => (partName (i + 1), (file.drop (splitSize * (i + 1))).take splitSize)) := by
    apply List.map_congr_left
    intro i hi
    have him : i < kk := List.mem_range.mp hi
    simp only [Prod.mk.injEq]
    refine ⟨trivial, ?_⟩
    rw [ht2, List.drop_take, List.take_take,
      Nat.min_eq_left (by simp only [splitSize]; omega :
        splitSize ≤ splitSize * (kk + 1) - splitSize * (i + 1))]
  have h00 : (tailCopy file (file.length - splitSize * (kk + 1))).2.take splitSize
      = file.take splitSize := by
    rw [ht2, List.take_take,
      Nat.min_eq_left (by simp only [splitSize]; omega :
        splitSize ≤ splitSize * (kk + 1))]
  rw [hmids, ht1, h00]
  have hlast : (file.drop (splitSize * (kk + 1))).take splitSize
      = file.drop (splitSize * (kk + 1)) := by
    rw [List.take_of_length_le]
    simp only [List.length_drop]
    omega
  rw [partsOf, hkk, List.range_succ, List.map_append]
  simp only [List.map_cons, List.map_nil]
  rw [List.range_succ_eq_map, List.map_cons, List.map_map]
  simp only [Nat.mul_zero, List.drop_zero, List.cons_append]
  rw [hlast]
  have hsucc : (List.range kk).map
      ((fun i => (partName i, (file.drop (splitSize * i)).take splitSize)) ∘ Nat.succ)
    = (List.range kk).map
      (fun i => (partName (i + 1), (file.drop (splitSize * (i + 1))).take splitSize)) := by
    apply List.map_congr_left
    intro i hi
    simp only [Function.comp_apply, Nat.succ_eq_add_one]
  rw [hsucc, if_neg (Nat.succ_ne_zero kk)]

lemma charsLt_cons (a b : Char) (as bs : List Char) :
    charsLt (a :: as) (b :: bs)
      = if a < b then true else if a = b then charsLt as bs else false := rfl

lemma digitChar_mono :
    ∀ a : Nat, a < 10 → ∀ b : Nat, b < 10 → a < b →
      Nat.digitChar a < Nat.digitChar b := by decide

lemma repr_data_lt10 (i : Nat) (h : i < 10) :
    (Nat.repr i).data = [Nat.digitChar i] := by
  have hd : Nat.toDigits 10 i = [Nat.digitChar i] := by
    rw [Nat.toDigits, Nat.toDigitsCore]
    simp [Nat.mod_eq_of_lt h, Nat.div_eq_of_lt h]
  simp only [Nat.repr, hd]
  rfl

lemma matchPattern_partName (i : Nat) (h : i < 10) :
    matchPattern (partName i) = true := by
  simp only [partName, if_pos h]
  rfl

lemma partName_lt_of_lt (i j : Nat) (hij : i < j) (hj : j < 10) :
    strLt (partName i) (partName j) = true := by
  have hi : i < 10 := by omega
  have hchar : Nat.digitChar i < Nat.digitChar j := digitChar_mono i hi j hj hij
  simp only [partName, if_pos hi, if_pos hj, strLt]
  rw [repr_data_lt10 i hi, repr_data_lt10 j hj]
  show charsLt ('0' :: [Nat.digitChar i]) ('0' :: [Nat.digitChar j]) = true
  rw [charsLt_cons, if_neg (lt_irrefl _), if_pos rfl, charsLt_cons, if_pos hchar]

lemma insertPart_nil (e : String × List Nat) : insertPart e [] = [e] := rfl

lemma insertPart_cons (e x : String × List Nat) (xs : List (String × List Nat)) :
    insertPart e (x :: xs)
      = if strLt e.1 x.1 then e :: x :: xs else x :: insertPart e xs := rfl

lemma sortParts_nil : sortParts [] = [] := rfl

lemma sortParts_cons (x : String × List Nat) (xs : List (String × List Nat)) :
    sortParts (x :: xs) = insertPart x (sortParts xs) := rfl

lemma sortParts_sorted_id :
    ∀ l : List (String × List Nat),
      l.Pairwise (fun a b => strLt a.1 b.1 = true) → sortParts l = l := by
  intro l h
  induction l with
  | nil => rfl
  | cons x xs ih =>
    rw [sortParts_cons, ih (List.Pairwise.of_cons h)]
    cases xs with
    | nil => rfl
    | cons y ys =>
      have hxy : strLt x.1 y.1 = true :=
        (List.pairwise_cons.mp h).1 y (List.mem_cons_self y ys)
      rw [insertPart_cons, if_pos hxy]

lemma insertPart_perm (e : String × List Nat) :
    ∀ l, (insertPart e l).Perm (e :: l) := by
  intro l
  induction l with
  | nil => exact List.Perm.refl _
  | cons x xs ih =>
    rw [insertPart_cons]
    by_cases h : strLt e.1 x.1 = true
    · rw [if_pos h]
    · rw [if_neg h]
      exact (List.Perm.cons x ih).trans (List.Perm.swap e x xs)

lemma sortParts_perm : ∀ l, (sortParts l).Perm l := by
  intro l
  induction l with
  | nil => exact List.Perm.refl _
  | cons x xs ih =>
    rw [sortParts_cons]
    exact (insertPart_perm x (sortParts xs)).trans (List.Perm.cons x ih)

lemma joinParts_eq (entries : List (String × List Nat)) :
    joinParts entries
      = ((sortParts (entries.filter (fun e => matchPattern e.1))).map
          (fun e => e.2)).flatten := by
  rw [joinParts]
  congr 1
  apply List.map_congr_left
  intro e _
  exact transferred_self e.2

lemma joinParts_length (entries : List (String × List Nat))
    (hall : ∀ e ∈ entries, matchPattern e.1 = true) :
    (joinParts entries).length = totalSize entries := by
  rw [joinParts_eq, List.filter_eq_self.mpr hall, List.length_flatten, List.map_map,
    totalSize]
  exact ((sortParts_perm entries).map fun e => e.2.length).sum_eq

lemma pairwise_partName_range (g : Nat → List Nat) :
    ∀ n : Nat, n ≤ 10 →
      ((List.range n).map (fun j => (partName j, g j))).Pairwise
        (fun a b => strLt a.1 b.1 = true) := by
  intro n
  induction n with
  | zero => intro _; simp
  | succ m ih =>
    intro h
    rw [List.range_succ, List.map_append, List.pairwise_append]
    refine ⟨ih (by omega), by simp, ?_⟩
    intro a ha b hb
    simp only [List.mem_map, List.mem_range] at ha
    obtain ⟨i, hi, rfl⟩ := ha
    simp only [List.map_cons, List.map_nil, List.mem_singleton] at hb
    subst hb
    exact partName_lt_of_lt i m hi (by omega)

lemma filter_partName_range (g : Nat → List Nat) (n : Nat) (h : n ≤ 10) :
    ((List.range n).map (fun j => (partName j, g j))).filter
        (fun e => matchPattern e.1)
      = (List.range n).map (fun j => (partName j, g j)) := by
  rw [List.filter_eq_self]
  intro e he
  simp only [List.mem_map, List.mem_range] at he
  obtain ⟨i, hi, rfl⟩ := he
  exact matchPattern_partName i (by omega)

lemma joinParts_partName_range (g : Nat → List Nat) (n : Nat) (h : n ≤ 10) :
    joinParts ((List.range n).map (fun j => (partName j, g j)))
      = ((List.range n).map g).flatten := by
  rw [joinParts_eq, filter_partName_range g n h,
    sortParts_sorted_id _ (pairwise_partName_range g n h), List.map_map]
  congr 1

lemma totalSize_partsOf (file : List Nat) : totalSize (partsOf file) = file.length := by
  rw [totalSize, partsOf, List.map_map]
  have hcomp : (List.range (file.length / splitSize + 1)).map
      ((fun e : String × List Nat => e.2.length)
        ∘ fun i => (partName i, (file.drop (splitSize * i)).take splitSize))
    = (List.range (file.length / splitSize + 1)).map
      (List.length ∘ fun i => (file.drop (splitSize * i)).take splitSize) := by
    apply List.map_congr_left
    intro i _
    rfl
  rw [hcomp]
  have hfl := congrArg List.length
    (flatten_chunks splitSize file (file.length / splitSize + 1))
  rw [List.length_flatten, List.map_map, List.length_take] at hfl
  rw [hfl]
  simp only [splitSize]
  omega

lemma undoSplit_partsOf (file : List Nat) (free : Nat)
    (h2 : splitSize ≤ file.length) (h3 : file.length < 10 * splitSize)
    (hfree : file.length ≤ free) :
    undoSplit (partsOf file) free none = some file := by
  have htot : totalSize (partsOf file) = file.length := totalSize_partsOf file
  have hn : file.length / splitSize + 1 ≤ 10 := by
    simp only [splitSize] at *
    omega
  simp only [undoSplit, htot, if_neg (by omega : ¬ free < file.length)]
  rw [partsOf, joinParts_partName_range _ _ hn, flatten_chunks,
    List.take_of_length_le (by simp only [splitSize] at *; omega)]

lemma file10_length : file10.length = 10 * splitSize + 1 := by
  rw [file10, List.length_append, List.length_replicate, List.length_cons,
    List.length_nil]

lemma file10_k : file10.length / splitSize = 10 := by
  rw [file10_length]
  simp only [splitSize]

lemma matchPattern_partName10 : matchPattern (partName 10) = false := by decide

lemma filter_partName_range11 (g : Nat → List Nat) :
    ((List.range 11).map (fun j => (partName j, g j))).filter
        (fun e => matchPattern e.1)
      = (List.range 10).map (fun j => (partName j, g j)) := by
  have h11 : List.range 11 = List.range 10 ++ [10] := by
    rw [(by norm_num : (11 : Nat) = 10 + 1)]
    exact List.range_succ 10
  rw [h11, List.map_append, List.filter_append, filter_partName_range g 10 (by omega)]
  simp [matchPattern_partName10]

lemma joinParts_partName_range11 (g : Nat → List Nat) :
    joinParts ((List.range 11).map (fun j => (partName j, g j)))
      = ((List.range 10).map g).flatten := by
  rw [joinParts_eq, filter_partName_range11,
    sortParts_sorted_id _ (pairwise_partName_range g 10 (by omega)), List.map_map]
  congr 1

lemma undoSplit_file10 (free : Nat) (hfree : 10 * splitSize + 1 ≤ free) :
    undoSplit (partsOf file10) free none
      = some (List.replicate (10 * splitSize) 0) := by
  have htot := totalSize_partsOf file10
  rw [file10_length] at htot
  simp only [undoSplit, htot,
    if_neg (by omega : ¬ free < 10 * splitSize + 1)]
  rw [partsOf, file10_k, (by norm_num : (10 : Nat) + 1 = 11),
    joinParts_partName_range11, flatten_chunks]
  have hlen : splitSize * 10 = (List.replicate (10 * splitSize) (0 : Nat)).length := by
    rw [List.length_replicate]
    ring
  simp only [file10]
  rw [hlen, List.take_left]

lemma splitCopy_none (free : Nat) (file : List Nat)
    (h : free < 2 * file.length ∨ file.length < splitSize) :
    splitCopy free file = none := by
  by_cases hf : free < file.length * 2
  · simp only [splitCopy, if_pos hf]
  · have hlen : file.length < splitSize := by omega
    have hk : file.length / splitSize = 0 := by
      simp only [splitSize] at *
      omega
    simp only [splitCopy, if_neg hf, hk]
    rfl

lemma splitQuick_none (free : Nat) (file : List Nat)
    (h : free < splitSize ∨ file.length < splitSize) :
    splitQuick free file = none := by
  by_cases hf : free < splitSize
  · simp only [splitQuick, if_pos hf]
  · have hlen : file.length < splitSize := by omega
    have hk : file.length / splitSize = 0 := by
      simp only [splitSize] at *
      omega
    simp only [splitQuick, if_neg hf, hk]
    rfl

lemma writeLoop_chunk_le (src : List Nat) (budget : Nat) :
    ∀ c ∈ (writeLoop src budget 0).1, c.length ≤ chunkSize := by
  intro c hc
  rw [writeLoop_chunks] at hc
  simp only [List.mem_map] at hc
  obtain ⟨i, _, rfl⟩ := hc
  rw [List.length_take]
  omega

lemma partsOf_count (file : List Nat) (k r : Nat) (hr : r < splitSize)
    (hlen : file.length = k * splitSize + r) :
    (partsOf file).length = k + 1 := by
  have hdiv : file.length / splitSize = k := by
    simp only [splitSize] at *
    omega
  simp [partsOf, hdiv]

lemma partsOf_sizes (file : List Nat) (k r : Nat) (_hk : 1 ≤ k) (hr : r < splitSize)
    (hlen : file.length = k * splitSize + r) :
    (partsOf file).map (fun e => e.2.length) = List.replicate k splitSize ++ [r] := by
  have hdiv : file.length / splitSize = k := by
    simp only [splitSize] at *
    omega
  rw [partsOf, hdiv, List.map_map, List.range_succ, List.map_append]
  congr 1
  · apply List.eq_replicate_iff.mpr
    refine ⟨by simp, ?_⟩
    intro b hb
    simp only [List.mem_map, List.mem_range, Function.comp_apply] at hb
    obtain ⟨i, hi, rfl⟩ := hb
    rw [List.length_take, List.length_drop]
    simp only [splitSize] at *
    omega
  · simp only [List.map_cons, List.map_nil, Function.comp_apply]
    congr 1
    rw [List.length_take, List.length_drop]
    simp only [splitSize] at *
    omega

lemma str_data_append (a b : String) : (a ++ b).data = a.data ++ b.data := rfl

lemma splitDirName_nsp (stem : String) :
    splitDirName (stem ++ ".nsp") = stem ++ "_split.nsp" := by
  simp only [splitDirName, str_data_append]
  have h4 : ".nsp".data.length = 4 := rfl
  rw [List.length_append, h4, Nat.add_sub_cancel, List.take_left]
  rfl

lemma undoName_split_nsp (stem : String)
    (h : stem.data.reverse.dropWhile (fun c => "_split.nsp".data.contains c)
        = stem.data.reverse) :
    undoName (stem ++ "_split.nsp") = stem ++ ".nsp" := by
  simp only [undoName, str_data_append, List.reverse_append]
  rw [show "_split.nsp".data.reverse = ['p','s','n','.','t','i','l','p','s','_'] from rfl]
  rw [List.cons_append, List.dropWhile_cons, if_pos (by decide)]
  rw [List.cons_append, List.dropWhile_cons, if_pos (by decide)]
  rw [List.cons_append, List.dropWhile_cons, if_pos (by decide)]
  rw [List.cons_append, List.dropWhile_cons, if_pos (by decide)]
  rw [List.cons_append, List.dropWhile_cons, if_pos (by decide)]
  rw [List.cons_append, List.dropWhile_cons, if_pos (by decide)]
  rw [List.cons_append, List.dropWhile_cons, if_pos (by decide)]
  rw [List.cons_append, List.dropWhile_cons, if_pos (by decide)]
  rw [List.cons_append, List.dropWhile_cons, if_pos (by decide)]
  rw [List.cons_append, List.dropWhile_cons, if_pos (by decide)]
  rw [List.nil_append, h, List.reverse_reverse]
  rfl

lemma quickState_zero (file : List Nat) : quickState file 0 = (file, []) := rfl

lemma quickState_succ (file : List Nat) (jj : Nat) :
    quickState file (jj + 1) =
      ((quickMids jj (file.length / splitSize - 1)
          (tailCopy file (file.length - splitSize * (file.length / splitSize))).2).2,
        (quickMids jj (file.length / splitSize - 1)
            (tailCopy file (file.length - splitSize * (file.length / splitSize))).2).1
          ++ [(partName (file.length / splitSize),
              (tailCopy file
                (file.length - splitSize * (file.length / splitSize))).1)]) := rfl

/-- Claim C1, amended: for a file with at least one full part and fewer than
ten full parts (so that all part names `00`..`09` are matched by the
joiner's name pattern), joining the copy-mode split reproduces the file
byte for byte; the join only reads the part entries, never changing them.
For ten or more full parts the round trip fails (see the counterexample):
the joiner's `[0,9]*` pattern silently drops parts `10`..`89`. -/
theorem splitCopy_undoSplit_roundtrip (file : List Nat) (free1 free2 : Nat)
    (h1 : file.length * 2 ≤ free1) (h2 : splitSize ≤ file.length)
    (h3 : file.length < 10 * splitSize) (h4 : file.length ≤ free2) :
    splitCopy free1 file = some (partsOf file) ∧
      undoSplit (partsOf file) free2 none = some file :=
  ⟨splitCopy_eq free1 file h1 h2, undoSplit_partsOf file free2 h2 h3 h4⟩

/-- Witness for C1 at a one-full-part file. -/
theorem splitCopy_undoSplit_roundtrip_witness :
    ((List.replicate splitSize 0).length * 2 ≤ 2 * splitSize
        ∧ splitSize ≤ (List.replicate splitSize 0).length
        ∧ (List.replicate splitSize 0).length < 10 * splitSize
        ∧ (List.replicate splitSize 0).length ≤ splitSize)
      ∧ splitCopy (2 * splitSize) (List.replicate splitSize 0)
          = some (partsOf (List.replicate splitSize 0))
      ∧ undoSplit (partsOf (List.replicate splitSize 0)) splitSize none
          = some (List.replicate splitSize 0) := by
  have h1 : (List.replicate splitSize (0 : Nat)).length * 2 ≤ 2 * splitSize := by
    rw [List.length_replicate]
    omega
  have h2 : splitSize ≤ (List.replicate splitSize (0 : Nat)).length := by
    rw [List.length_replicate]
  have h3 : (List.replicate splitSize (0 : Nat)).length < 10 * splitSize := by
    rw [List.length_replicate]
    simp only [splitSize]
    norm_num
  have h4 : (List.replicate splitSize (0 : Nat)).length ≤ splitSize := by
    rw [List.length_replicate]
  obtain ⟨hc, hu⟩ := splitCopy_undoSplit_roundtrip (List.replicate splitSize 0)
    (2 * splitSize) splitSize h1 h2 h3 h4
  exact ⟨⟨h1, h2, h3, h4⟩, hc, hu⟩

/-- Counterexample for C1 as stated: for the file of ten full parts plus one
byte, copy-mode split succeeds with parts `00`..`10`, but the join returns
only the first ten parts' bytes (part `10` is dropped by the `[0,9]*`
pattern), so the result is not byte-identical to the original. -/
theorem splitCopy_undoSplit_roundtrip_cex :
    splitCopy ((10 * splitSize + 1) * 2) file10 = some (partsOf file10) ∧
      undoSplit (partsOf file10) (10 * splitSize + 1) none
        = some (List.replicate (10 * splitSize) 0) ∧
      List.replicate (10 * splitSize) (0 : Nat) ≠ file10 := by
  refine ⟨?_, undoSplit_file10 _ le_rfl, ?_⟩
  · apply splitCopy_eq
    · rw [file10_length]
    · rw [file10_length]
      simp only [splitSize]
      norm_num
  · intro hcontra
    have hlen := congrArg List.length hcontra
    rw [List.length_replicate, file10_length] at hlen
    omega

/-- Claim C2: the joiner's filter is `fnmatch` with pattern `[0,9]*`
(line 140), which selects exactly the names whose first character is `0`,
`,` or `9` — not the two-digit part names.  The valid part name `10` is
excluded (so the join of an eleven-part set silently drops its bytes) and a
stray name such as `0junk` is included. -/
theorem undoSplit_filter_bug :
    matchPattern (partName 10) = false ∧ matchPattern "0junk" = true ∧
      undoSplit [(partName 0, [1]), (partName 10, [2])] 2 none = some [1] := by
  refine ⟨matchPattern_partName10, by decide, ?_⟩
  have htot : totalSize [(partName 0, [1]), (partName 10, [2])] = 2 := by decide
  simp only [undoSplit, htot]
  rw [if_neg (by omega : ¬ (2 : Nat) < 2), joinParts_eq]
  rw [show ([(partName 0, ([1] : List Nat)), (partName 10, [2])].filter
      (fun e => matchPattern e.1)) = [(partName 0, [1])] from by decide]
  rw [show sortParts [(partName 0, ([1] : List Nat))] = [(partName 0, [1])] from rfl]
  rfl

/-- Claim C3, amended: copy-mode split of a file of `k` full parts and `r`
remainder bytes always creates `k + 1` part files: the first `k` of size
exactly `splitSize` and a last one of size `r` — also when `r = 0`, in
which case the loop still runs a final iteration and leaves an empty part
file `k` (the claim said no remainder part is created then). -/
theorem splitCopy_part_sizes (file : List Nat) (free k r : Nat)
    (hk : 1 ≤ k) (hr : r < splitSize) (hlen : file.length = k * splitSize + r)
    (hfree : file.length * 2 ≤ free) :
    splitCopy free file = some (partsOf file) ∧
      (partsOf file).length = k + 1 ∧
      (partsOf file).map (fun e => e.2.length) = List.replicate k splitSize ++ [r] := by
  refine ⟨splitCopy_eq free file hfree ?_, partsOf_count file k r hr hlen,
    partsOf_sizes file k r hk hr hlen⟩
  simp only [splitSize] at *
  omega

/-- Witness for C3 at `k = 1`, `r = 0`. -/
theorem splitCopy_part_sizes_witness :
    (1 ≤ 1 ∧ 0 < splitSize
        ∧ (List.replicate splitSize (0 : Nat)).length = 1 * splitSize + 0
        ∧ (List.replicate splitSize (0 : Nat)).length * 2 ≤ 2 * splitSize)
      ∧ splitCopy (2 * splitSize) (List.replicate splitSize 0)
          = some (partsOf (List.replicate splitSize 0))
      ∧ (partsOf (List.replicate splitSize 0)).length = 1 + 1
      ∧ (partsOf (List.replicate splitSize 0)).map (fun e => e.2.length)
          = List.replicate 1 splitSize ++ [0] := by
  have ha : (1 : Nat) ≤ 1 := le_rfl
  have hb : 0 < splitSize := by
    simp only [splitSize]
    norm_num
  have hc : (List.replicate splitSize (0 : Nat)).length = 1 * splitSize + 0 := by
    rw [List.length_replicate]
    omega
  have hd : (List.replicate splitSize (0 : Nat)).length * 2 ≤ 2 * splitSize := by
    rw [List.length_replicate]
    omega
  obtain ⟨hs, hcount, hsizes⟩ := splitCopy_part_sizes (List.replicate splitSize 0)
    (2 * splitSize) 1 0 ha hb hc hd
  exact ⟨⟨ha, hb, hc, hd⟩, hs, hcount, hsizes⟩

/-- Counterexample for C3 as stated: a file of exactly one full part
(`r = 0`, `k = 1`) yields two part files (the second empty), not one. -/
theorem splitCopy_part_count_cex :
    (splitCopy (2 * splitSize) (List.replicate splitSize 0)).map List.length
        = some 2 ∧ (2 : Nat) ≠ 1 := by
  constructor
  · rw [splitCopy_eq (2 * splitSize) (List.replicate splitSize 0)
      (by rw [List.length_replicate]; omega)
      (by rw [List.length_replicate])]
    rw [Option.map_some']
    rw [partsOf_count (List.replicate splitSize 0) 1 0
      (by simp only [splitSize]; norm_num)
      (by rw [List.length_replicate]; omega)]
  · omega

/-- Claim C4, amended: a part transfer with byte budget `budget` copies the
budget exactly — in reads of at most `chunkSize` each — whenever
`chunkSize` divides the budget, or the source has exactly the budgeted
number of bytes available from the current position (relying on
end-of-file to cut the final read short).  One of the two always holds at
the script's call sites.  The loop itself does not clamp reads to the
budget: with more bytes available and a budget not divisible by
`chunkSize` it reads past the budget (see the counterexample). -/
theorem transfer_exact (src : List Nat) (budget : Nat)
    (h1 : budget ≤ src.length) (h2 : chunkSize ∣ budget ∨ src.length = budget) :
    transferred src budget = src.take budget ∧
      (transferred src budget).length = budget ∧
      ∀ c ∈ (writeLoop src budget 0).1, c.length ≤ chunkSize := by
  have htake : transferred src budget = src.take budget := by
    rcases h2 with hd | hlen
    · exact transferred_of_dvd src budget hd
    · rw [transferred_all src budget (by omega), List.take_of_length_le (by omega)]
  refine ⟨htake, ?_, writeLoop_chunk_le src budget⟩
  rw [htake, List.length_take]
  omega

/-- Witness for C4 with a one-byte budget on a one-byte source. -/
theorem transfer_exact_witness :
    ((1 : Nat) ≤ [(5 : Nat)].length ∧ (chunkSize ∣ 1 ∨ [(5 : Nat)].length = 1))
      ∧ transferred [5] 1 = [(5 : Nat)].take 1
      ∧ (transferred [5] 1).length = 1
      ∧ ∀ c ∈ (writeLoop [5] 1 0).1, c.length ≤ chunkSize := by
  have h1 : (1 : Nat) ≤ [(5 : Nat)].length := by decide
  have h2 : chunkSize ∣ 1 ∨ [(5 : Nat)].length = 1 := Or.inr (by decide)
  obtain ⟨ha, hb, hc⟩ := transfer_exact [5] 1 h1 h2
  exact ⟨⟨h1, h2⟩, ha, hb, hc⟩

/-- Counterexample for C4 as stated: with budget 1000 (not a multiple of
`chunkSize`) and a source holding more than one chunk of bytes, the loop
transfers a full `chunkSize` bytes, more than the budget. -/
theorem transfer_overread_cex :
    (transferred (List.replicate (2 * chunkSize) 0) 1000).length = chunkSize ∧
      chunkSize ≠ 1000 := by
  constructor
  · rw [transferred_eq, List.length_take, List.length_replicate]
    simp only [chunksNeeded, chunkSize]
    norm_num
  · simp only [chunkSize]
    norm_num

/-- Claim C5: quick-mode and copy-mode split produce identical PartSets —
same part count, names, sizes and contents — whenever both have the free
space they require; both equal `partsOf`, the list of `splitSize`-slices of
the file.  (Quick mode reaches it destructively: its part `00` is the
moved-in source file after all truncations.) -/
theorem splitQuick_splitCopy_equiv (file : List Nat) (freeQ freeC : Nat)
    (h1 : splitSize ≤ freeQ) (h2 : file.length * 2 ≤ freeC)
    (h3 : splitSize ≤ file.length) :
    splitQuick freeQ file = splitCopy freeC file ∧
      splitCopy freeC file = some (partsOf file) := by
  have hc := splitCopy_eq freeC file h2 h3
  have hq := splitQuick_eq freeQ file h1 h3
  exact ⟨hq.trans hc.symm, hc⟩

/-- Witness for C5 at a one-full-part file. -/
theorem splitQuick_splitCopy_equiv_witness :
    (splitSize ≤ splitSize
        ∧ (List.replicate splitSize (0 : Nat)).length * 2 ≤ 2 * splitSize
        ∧ splitSize ≤ (List.replicate splitSize (0 : Nat)).length)
      ∧ splitQuick splitSize (List.replicate splitSize 0)
          = splitCopy (2 * splitSize) (List.replicate splitSize 0)
      ∧ splitCopy (2 * splitSize) (List.replicate splitSize 0)
          = some (partsOf (List.replicate splitSize 0)) := by
  have h1 : splitSize ≤ splitSize := le_rfl
  have h2 : (List.replicate splitSize (0 : Nat)).length * 2 ≤ 2 * splitSize := by
    rw [List.length_replicate]
    omega
  have h3 : splitSize ≤ (List.replicate splitSize (0 : Nat)).length := by
    rw [List.length_replicate]
  obtain ⟨ha, hb⟩ := splitQuick_splitCopy_equiv (List.replicate splitSize 0)
    splitSize (2 * splitSize) h1 h2 h3
  exact ⟨⟨h1, h2, h3⟩, ha, hb⟩

/-- Claim C6, amended: the split directory name is the input path with its
last four characters removed plus the literal `_split.nsp` — this equals
"strip the extension, append `_split` + the original extension" exactly for
paths ending in `.nsp` (for any other extension the result still ends in
`.nsp`).  The joiner's output name strips all trailing characters drawn
from the character set of `"_split.nsp"` and appends `.nsp` — this equals
stripping a literal `_split.nsp` suffix only when the remaining stem does
not itself end in one of those characters. -/
theorem naming_convention (stem : String)
    (h : stem.data.reverse.dropWhile (fun c => "_split.nsp".data.contains c)
        = stem.data.reverse) :
    splitDirName (stem ++ ".nsp") = stem ++ "_split.nsp" ∧
      undoName (stem ++ "_split.nsp") = stem ++ ".nsp" :=
  ⟨splitDirName_nsp stem, undoName_split_nsp stem h⟩

/-- Witness for C6 at stem `game`. -/
theorem naming_convention_witness :
    ("game".data.reverse.dropWhile (fun c => "_split.nsp".data.contains c)
        = "game".data.reverse)
      ∧ splitDirName ("game" ++ ".nsp") = "game" ++ "_split.nsp"
      ∧ undoName ("game" ++ "_split.nsp") = "game" ++ ".nsp" := by
  have h : "game".data.reverse.dropWhile (fun c => "_split.nsp".data.contains c)
      = "game".data.reverse := by decide
  obtain ⟨ha, hb⟩ := naming_convention "game" h
  exact ⟨h, ha, hb⟩

/-- Counterexample for C6 as stated: `rstrip("_split.nsp")` strips a
character set, so the directory `test_split.nsp` joins into `te.nsp`
instead of `test.nsp`; and splitting `movie.mkv` names the directory
`movie_split.nsp`, not `movie_split.mkv` (the original extension is not
preserved). -/
theorem naming_convention_cex :
    undoName "test_split.nsp" = "te.nsp"
      ∧ ("te.nsp" : String) ≠ "test" ++ ".nsp"
      ∧ splitDirName "movie.mkv" = "movie_split.nsp"
      ∧ ("movie_split.nsp" : String) ≠ "movie" ++ "_split.mkv" :=
  ⟨by decide, by decide, by decide, by decide⟩

/-- Claim C7, amended: the joiner's already-completed check compares the
pre-existing target's size with the sum of the sizes of all files in the
directory and performs no write when they are equal; re-running the join
after a successful one is therefore a no-op whenever every file of the
directory is selected by the joiner's name filter (then the first join's
output size equals that sum).  That condition is sufficient, not
necessary: a file the filter excludes leaves the sizes equal when it is
empty.  The idempotence does fail when the filter drops a nonempty part:
for a PartSet whose part `10` is nonempty the first join writes fewer
bytes than the directory total, so a second join writes again (see the
counterexample). -/
theorem undoSplit_idempotent (entries : List (String × List Nat)) (free1 free2 : Nat)
    (hall : ∀ e ∈ entries, matchPattern e.1 = true)
    (hfree : totalSize entries ≤ free1) :
    undoSplit entries free2 (some (totalSize entries)) = none ∧
      undoSplit entries free1 none = some (joinParts entries) ∧
      undoSplit entries free2 (some ((joinParts entries).length)) = none := by
  have hlen := joinParts_length entries hall
  have hna : undoSplit entries free2 (some (totalSize entries)) = none := by
    simp only [undoSplit]
    by_cases hf : free2 < totalSize entries
    · rw [if_pos hf]
    · rw [if_neg hf]
      rfl
  refine ⟨hna, ?_, ?_⟩
  · simp only [undoSplit, if_neg (by omega : ¬ free1 < totalSize entries)]
  · rw [hlen]
    exact hna

/-- Witness for C7 on a one-part directory. -/
theorem undoSplit_idempotent_witness :
    ((∀ e ∈ [(("00" : String), [(1 : Nat)])], matchPattern e.1 = true)
        ∧ totalSize [(("00" : String), [(1 : Nat)])] ≤ 1)
      ∧ undoSplit [(("00" : String), [(1 : Nat)])] 0
          (some (totalSize [(("00" : String), [(1 : Nat)])])) = none
      ∧ undoSplit [(("00" : String), [(1 : Nat)])] 1 none
          = some (joinParts [(("00" : String), [(1 : Nat)])])
      ∧ undoSplit [(("00" : String), [(1 : Nat)])] 0
          (some ((joinParts [(("00" : String), [(1 : Nat)])]).length)) = none := by
  have hall : ∀ e ∈ [(("00" : String), [(1 : Nat)])], matchPattern e.1 = true := by
    decide
  have hfree : totalSize [(("00" : String), [(1 : Nat)])] ≤ 1 := by decide
  obtain ⟨ha, hb, hc⟩ := undoSplit_idempotent [(("00" : String), [(1 : Nat)])] 1 0
    hall hfree
  exact ⟨⟨hall, hfree⟩, ha, hb, hc⟩

/-- Counterexample for C7 as stated: for the eleven-part PartSet of
`file10`, the first join writes `10 * splitSize` bytes (part `10` is
dropped by the filter) while the directory total is `10 * splitSize + 1`,
so a second join — with the combined file of the first join present — is
not treated as already completed and performs another write pass. -/
theorem undoSplit_idempotent_cex :
    undoSplit (partsOf file10) (2 * (10 * splitSize + 1)) none
        = some (List.replicate (10 * splitSize) 0) ∧
      (List.replicate (10 * splitSize) (0 : Nat)).length = 10 * splitSize ∧
      undoSplit (partsOf file10) (2 * (10 * splitSize + 1))
          (some (10 * splitSize)) ≠ none := by
  refine ⟨undoSplit_file10 _ (by omega), List.length_replicate .., ?_⟩
  have htot := totalSize_partsOf file10
  rw [file10_length] at htot
  simp only [undoSplit, htot]
  rw [if_neg (by omega : ¬ 2 * (10 * splitSize + 1) < 10 * splitSize + 1),
    if_neg (by omega : ¬ 10 * splitSize = 10 * splitSize + 1)]
  simp

/-- Claim C8: when a split mode's precondition fails — free space below the
mode's minimum (twice the file size for copy mode, one `splitSize` unit for
quick mode), or a file smaller than `splitSize` (`splitNum = 0`) — the
operation returns before any filesystem mutation (`none` models the early
return, taken before any directory is created or removed and before the
source is touched). -/
theorem split_precondition_noop (freeC freeQ : Nat) (file : List Nat)
    (hC : freeC < 2 * file.length ∨ file.length < splitSize)
    (hQ : freeQ < splitSize ∨ file.length < splitSize) :
    splitCopy freeC file = none ∧ splitQuick freeQ file = none :=
  ⟨splitCopy_none freeC file hC, splitQuick_none freeQ file hQ⟩

/-- Witness for C8 on a one-byte file with no free space. -/
theorem split_precondition_noop_witness :
    ((0 < 2 * [(3 : Nat)].length ∨ [(3 : Nat)].length < splitSize)
        ∧ (0 < splitSize ∨ [(3 : Nat)].length < splitSize))
      ∧ splitCopy 0 [3] = none ∧ splitQuick 0 [3] = none := by
  have hC : (0 : Nat) < 2 * [(3 : Nat)].length ∨ [(3 : Nat)].length < splitSize := by
    right
    decide
  have hQ : (0 : Nat) < splitSize ∨ [(3 : Nat)].length < splitSize := by
    right
    decide
  obtain ⟨ha, hb⟩ := split_precondition_noop 0 0 [3] hC hQ
  exact ⟨⟨hC, hQ⟩, ha, hb⟩

/-- Claim C9: after every completed extract-and-truncate step of the
quick-mode splitter (truncation being the last action of the step), the
shrunken source file `00` followed by the already-extracted parts in
ascending index order is byte-identical to the original file; the source is
never left corrupted between steps. -/
theorem quick_step_invariant (file : List Nat) (j : Nat) :
    (quickState file j).1 ++ ((quickState file j).2.map (fun e => e.2)).flatten
      = file := by
  cases j with
  | zero => simp [quickState_zero]
  | succ jj =>
    rw [quickState_succ]
    simp only [List.map_append, List.flatten_append, List.map_cons, List.map_nil,
      List.flatten_cons, List.flatten_nil, List.append_nil]
    rw [← List.append_assoc, quickMids_inv]
    exact tailCopy_inv file _

/-- Claim C10: every part-transfer loop performs exactly
`⌈budget / chunkSize⌉` iterations (one chunk written per iteration),
independently of the source — the counter advances by the full `chunkSize`
regardless of how many bytes each read returns, so termination never
depends on the source delivering the budget. -/
theorem writeLoop_iteration_count (src : List Nat) (budget : Nat) :
    (writeLoop src budget 0).1.length = (budget + chunkSize - 1) / chunkSize :=
  writeLoop_count src budget
